import Mathlib

/-!
Shallow embedding of the SwiftGuard fraud-detection core, translated from
`src/project/agents/evaluator_optimizer.py`,
`src/project/agents/workflow_agents/base_agents.py` and
`src/project/agents/parallelization.py`.

Modelling conventions:
* Python strings are Lean `String`s; character classes (`isalpha`, `isupper`
  conversions, ...) are modelled on their ASCII behaviour.
* Python floats are modelled as exact rationals (`ℚ`); `round` is modelled
  as exact half-to-even rounding on rationals.
* Python dicts are association lists (`List (String × α)`) with in-place
  key replacement on assignment, which preserves Python's insertion order.
* A raised-and-propagated Python exception is an `Except.error`; a value of
  unknown non-string type stored in a message field is `Val.other` (it is
  treated as a truthy non-string, so using it as a string raises).
* The language-model calls (evaluation oracle, correction oracle) are
  opaque parameters, exactly as the spec treats them.
-/

set_option autoImplicit false

namespace SwiftGuard

/-- ASCII model of Python `str.isalpha` on one character. -/
def pyIsAlpha (c : Char) : Bool := c.isAlpha

/-- ASCII model of Python `str.isalnum` on one character. -/
def pyIsAlnum (c : Char) : Bool := c.isAlpha || c.isDigit

/-- Shared shape of Python's string-class checks: a nonempty string all of
whose characters satisfy the class predicate. -/
def pyStrAll (p : Char → Bool) (cs : List Char) : Bool := !cs.isEmpty && cs.all p

/-- Python `s.isalpha()`: nonempty and every character alphabetic. -/
def strIsAlpha (cs : List Char) : Bool := pyStrAll pyIsAlpha cs

/-- Python `s.isalnum()`: nonempty and every character alphanumeric. -/
def strIsAlnum (cs : List Char) : Bool := pyStrAll pyIsAlnum cs

/-- `EvaluatorOptimizerPattern._validate_bic`, clause for clause: empty check,
length in `[8, 11]`, `bic[:4].isalpha()`, `bic[4:6].isalpha()`,
`bic[6:8].isalnum()` and, for length 11, `bic[8:11].isalnum()`.
Python slicing never raises, so the function is total. -/
def validate_bic (bic : String) : Bool :=
  if bic.data.isEmpty then false
  else if !(bic.data.length = 8 || bic.data.length = 11) then false
  else if !(strIsAlpha (bic.data.take 4)) then false
  else if !(strIsAlpha ((bic.data.drop 4).take 2)) then false
  else if !(strIsAlnum ((bic.data.drop 6).take 2)) then false
  else if bic.data.length = 11 && !(strIsAlnum ((bic.data.drop 8).take 3)) then false
  else true

/-- Python `str.split()` whitespace class (ASCII part). -/
def pySpace (c : Char) : Bool :=
  c = ' ' || c = '\t' || c = '\n' || c = '\r' || c = Char.ofNat 11 || c = Char.ofNat 12

/-- Helper for `pySplit`; the first argument is the remaining input and the
second the current chunk, reversed. -/
def splitWsAux : List Char → List Char → List (List Char)
  | [], acc => if acc.isEmpty then [] else [acc.reverse]
  | c :: cs, acc =>
    if pySpace c then
      if acc.isEmpty then splitWsAux cs []
      else acc.reverse :: splitWsAux cs []
    else splitWsAux cs (c :: acc)

/-- Python `str.split()` with no argument: split on whitespace runs, dropping
empty chunks. -/
def pySplit (s : String) : List (List Char) := splitWsAux s.data []

/-- Does the second list start with the first one? -/
def startsWithChunk : List Char → List Char → Bool
  | [], _ => true
  | _ :: _, [] => false
  | a :: as, b :: bs => a = b && startsWithChunk as bs

/-- Python `needle in hay` contiguous-substring test. -/
def occursIn : List Char → List Char → Bool
  | n, [] => n.isEmpty
  | n, c :: cs => startsWithChunk n (c :: cs) || occursIn n cs

/-- Python `str.upper()` (ASCII model). -/
def toUpperStr (s : String) : String := String.mk (s.data.map Char.toUpper)

/-- Python `str.lower()` (ASCII model). -/
def toLowerStr (s : String) : String := String.mk (s.data.map Char.toLower)

/-- A fraud-agent result record: the dict built by each agent's `analyze`,
plus the `error` and `message_id` keys that `_process_message` may add
(absent keys are `none`). -/
structure AgentScore where
  agent : String
  risk_score : ℚ
  fraud_reasons : List String
  errField : Option String
  message_id : Option String
deriving DecidableEq, Repr

/-- A value stored in a SWIFT message dict. `other` stands for any value of
a type the core never reads successfully as a string. -/
inductive Val where
  | str (s : String)
  | strList (l : List String)
  | num (q : ℚ)
  | scores (l : List AgentScore)
  | other
deriving DecidableEq, Repr

/-- A SWIFT message: a Python dict in insertion order. -/
abbrev Msg := List (String × Val)

/-- Python `d.get(k)` / `d[k]` lookup (dict keys are unique, so first match). -/
def lookupKey {α : Type} : List (String × α) → String → Option α
  | [], _ => none
  | (k', v) :: rest, k => if k' = k then some v else lookupKey rest k

/-- Python dict assignment `d[k] = v`: replace in place, else append. -/
def dictInsert {α : Type} (k : String) (v : α) :
    List (String × α) → List (String × α)
  | [] => [(k, v)]
  | (k', v') :: rest =>
    if k' = k then (k', v) :: rest else (k', v') :: dictInsert k v rest

/-- The keys of a dict, in order. -/
def keysOf {α : Type} (d : List (String × α)) : List String := d.map Prod.fst

/-- Python `d.update(upd)`: assign every key of `upd` in order. -/
def dictUpdate {α : Type} (d upd : List (String × α)) : List (String × α) :=
  upd.foldl (fun acc kv => dictInsert kv.1 kv.2 acc) d

/-- Python `message.get(k, dflt)` used as a string: absent keys give the
default, a stored string gives itself, and a stored non-string raises
(`Except.error`) when the caller applies a string method to it. -/
def strFieldD (m : Msg) (k : String) (dflt : String) : Except String String :=
  match lookupKey m k with
  | none => Except.ok dflt
  | some (Val.str s) => Except.ok s
  | some _ => Except.error "TypeError"

/-- The filter `''.join(c for c in amount_str if c.isdigit() or c == '.')`. -/
def stripAmount (s : String) : List Char := s.data.filter (fun c => c.isDigit || c = '.')

/-- Decimal value of a list of digit characters. -/
def natOfDigits (cs : List Char) : ℕ := cs.foldl (fun n c => 10 * n + (c.toNat - 48)) 0

/-- Python `float(cs)` restricted to strings of digits and dots (the only
inputs produced by `stripAmount`): at most one dot and at least one digit,
otherwise `ValueError` (`none`). -/
def pyFloat (cs : List Char) : Option ℚ :=
  if cs.count '.' = 0 then
    if cs.isEmpty then none else some ((natOfDigits cs : ℚ))
  else if cs.count '.' = 1 then
    let ip := cs.takeWhile (fun c => c ≠ '.')
    let fp := (cs.dropWhile (fun c => c ≠ '.')).tail
    if ip.isEmpty && fp.isEmpty then none
    else some ((natOfDigits ip : ℚ) + (natOfDigits fp : ℚ) / (10 : ℚ) ^ fp.length)
  else none

/-- Rendering of an amount into a reason string.  The exact text of the
interpolated number is irrelevant to every claim; we render the exact
rational. -/
def qstr (q : ℚ) : String := toString q.num ++ "/" ++ toString q.den

/-- Python `amount % 1000 == 0` on the exact-rational model. -/
def isMultOf1000 (a : ℚ) : Prop := a.den = 1 ∧ a.num % 1000 = 0

instance (a : ℚ) : Decidable (isMultOf1000 a) := by
  unfold isMultOf1000
  exact instDecidableAnd

/-- Python `amount % 1 == 0` on the exact-rational model. -/
def intValued (a : ℚ) : Prop := a.den = 1

instance (a : ℚ) : Decidable (intValued a) := by
  unfold intValued
  exact Nat.decEq a.den 1

/-- The `amount` field as read by `FraudAmountDetectionAgent.analyze`:
default `'0'`; a stored non-string makes the arithmetic raise a `TypeError`
that the agent's own `except` clause swallows (`none`). -/
def amountField (m : Msg) : Option String :=
  match lookupKey m "amount" with
  | none => some "0"
  | some (Val.str s) => some s
  | some _ => none

/-- `FraudAmountDetectionAgent.analyze`: parse the stripped amount, then the
three sequential rules, then clamp with `min(risk_score, 1.0)`.  Parse
failure (`ValueError`/`TypeError`) is caught and yields risk 0, no reasons. -/
def amount_analyze (m : Msg) : AgentScore :=
  match amountField m with
  | none => ⟨"FraudAmountDetectionAgent", 0, [], none, none⟩
  | some s =>
    match pyFloat (stripAmount s) with
    | none => ⟨"FraudAmountDetectionAgent", 0, [], none, none⟩
    | some a =>
      let st1 : ℚ × List String :=
        if a > 10000 then (0 + 0.3, [] ++ ["High amount transaction: " ++ qstr a])
        else (0, [])
      let st2 : ℚ × List String :=
        if isMultOf1000 a ∧ a > 0 then
          (st1.1 + 0.2, st1.2 ++ ["Suspiciously round amount: " ++ qstr a])
        else st1
      let st3 : ℚ × List String :=
        if a > 100000 ∧ ¬ intValued a then
          (st2.1 + 0.1, st2.2 ++ ["Large amount with unusual decimal precision"])
        else st2
      ⟨"FraudAmountDetectionAgent", min st3.1 1, st3.2, none, none⟩

/-- `self.high_risk_patterns` of `FraudPatternDetectionAgent`. -/
def HIGH_RISK_PATTERNS : List String := ["TEST", "FAKE", "DEMO", "999", "000000"]

/-- `self.suspicious_keywords` of `FraudPatternDetectionAgent`. -/
def SUSPICIOUS_KEYWORDS : List String := ["urgent", "immediately", "secret", "confidential"]

/-- One `for p in l: if cond(p): risk += w; reasons.append(reasonOf p)` loop,
threading the `(risk_score, fraud_reasons)` state. -/
def scoreLoop (w : ℚ) (cond : String → Bool) (reasonOf : String → String)
    (l : List String) (st : ℚ × List String) : ℚ × List String :=
  l.foldl (fun acc p => if cond p then (acc.1 + w, acc.2 ++ [reasonOf p]) else acc) st

/-- `FraudPatternDetectionAgent.analyze`: pattern loop over both upper-cased
BICs, same-sender-and-receiver check, keyword loop over the lower-cased
remittance text, then clamp.  A non-string field value raises, which this
agent does not catch. -/
def pattern_analyze (m : Msg) : Except String AgentScore := do
  let sender_bic ← strFieldD m "sender_bic" ""
  let receiver_bic ← strFieldD m "receiver_bic" ""
  let st1 := scoreLoop 0.4
    (fun p => occursIn p.data (toUpperStr sender_bic).data ||
              occursIn p.data (toUpperStr receiver_bic).data)
    (fun p => "Test/fake pattern detected in BIC: " ++ p)
    HIGH_RISK_PATTERNS (0, [])
  let st2 := if sender_bic ≠ "" ∧ sender_bic = receiver_bic then
      (st1.1 + 0.5, st1.2 ++ ["Same sender and receiver BIC"])
    else st1
  let remittance ← strFieldD m "remittance_info" ""
  let st3 := scoreLoop 0.2
    (fun k => occursIn k.data (toLowerStr remittance).data)
    (fun k => "Suspicious keyword in remittance: " ++ k)
    SUSPICIOUS_KEYWORDS st2
  Except.ok ⟨"FraudPatternDetectionAgent", min st3.1 1, st3.2, none, none⟩

/-- `GeographicRiskAgent.HIGH_RISK_COUNTRIES`. -/
def HIGH_RISK_COUNTRIES : List String := ["IR", "KP", "SY", "AF"]

/-- Python `bic[4:6]`: never raises, shorter strings give a shorter slice. -/
def countryOf (s : String) : String := String.mk ((s.data.drop 4).take 2)

/-- `GeographicRiskAgent.analyze`.  Slicing never raises in Python; the
`except Exception: pass` branch fires only when a BIC field holds a
non-string value, and in that case both extractions precede any score
update, so risk 0 and no reasons are returned. -/
def geo_analyze (m : Msg) : AgentScore :=
  match strFieldD m "sender_bic" "", strFieldD m "receiver_bic" "" with
  | Except.ok sb, Except.ok rb =>
    let st1 : ℚ × List String :=
      if countryOf sb ∈ HIGH_RISK_COUNTRIES then
        (0 + 0.4, [] ++ ["High-risk sender country: " ++ countryOf sb])
      else (0, [])
    let st2 : ℚ × List String :=
      if countryOf rb ∈ HIGH_RISK_COUNTRIES then
        (st1.1 + 0.4, st1.2 ++ ["High-risk receiver country: " ++ countryOf rb])
      else st1
    ⟨"GeographicRiskAgent", min st2.1 1, st2.2, none, none⟩
  | _, _ => ⟨"GeographicRiskAgent", 0, [], none, none⟩

/-- The aggregate verdict dict returned by `FraudAggAgent.aggregate_results`. -/
structure AggregateVerdict where
  is_fraudulent : Bool
  confidence : ℚ
  total_risk_score : ℚ
  aggregated_reasons : List String
deriving DecidableEq, Repr

/-- Half-to-even rounding to an integer, as Python `round` does. -/
def roundHalfEven (q : ℚ) : ℤ :=
  let f := ⌊q⌋
  if q - f < 1 / 2 then f
  else if 1 / 2 < q - f then f + 1
  else if f % 2 = 0 then f else f + 1

/-- Python `round(q, n)` on the exact-rational model of floats. -/
def pyRound (q : ℚ) (n : ℕ) : ℚ := (roundHalfEven (q * 10 ^ n) : ℚ) / 10 ^ n

/-- `FraudAggAgent.aggregate_results`, with `self.threshold = 0.5`:
empty input short-circuit, average risk, reason concatenation with the
`"[<agent>] "` marker, threshold comparison, and the two roundings. -/
def aggregate_results (fraud_results : List AgentScore) : AggregateVerdict :=
  if fraud_results.isEmpty then ⟨false, 0, 0, []⟩
  else
    let total_risk := fraud_results.foldl (fun acc r => acc + r.risk_score) 0
    let avg_risk := total_risk / (fraud_results.length : ℚ)
    let all_reasons := fraud_results.foldl
      (fun acc r =>
        r.fraud_reasons.foldl (fun acc2 s => acc2 ++ ["[" ++ r.agent ++ "] " ++ s]) acc)
      []
    ⟨if avg_risk ≥ (0.5 : ℚ) then true else false,
     pyRound (avg_risk * 100) 2, pyRound avg_risk 3, all_reasons⟩

/-- A reply of the correction oracle (`SwiftCorrectionAgent.respond` as seen
by `optimize_message`): it may raise, return a non-dict value, or return a
dict of corrections. -/
inductive OracleReply where
  | raises
  | nonDict
  | dict (upd : Msg)

/-- The `try`/`isinstance`/`update` block of `optimize_message`: a raised
exception is caught and nothing is merged; a non-dict reply is ignored;
a dict reply is merged key by key into the message. -/
def applyReply : OracleReply → Msg → Msg
  | OracleReply.raises, m => m
  | OracleReply.nonDict, m => m
  | OracleReply.dict upd, m => dictUpdate m upd

/-- The local deterministic repair at the end of `optimize_message`: when the
`amount` value is a string whose whitespace split has exactly one part, the
amount becomes `f"{parts[0]} USD"`. -/
def fixAmount (m : Msg) : Msg :=
  match lookupKey m "amount" with
  | some (Val.str s) =>
    match pySplit s with
    | [t] => dictInsert "amount" (Val.str (String.mk (t ++ (" USD").data))) m
    | _ => m
  | _ => m

/-- `EvaluatorOptimizerPattern.optimize_message` for a given oracle reply:
merge (or not), then always run the local repair. -/
def optimize_message (reply : OracleReply) (m : Msg) : Msg :=
  fixAmount (applyReply reply m)

/-- `message['validation_status'] = 'VALID'; message['validation_errors'] = []`. -/
def setValid (m : Msg) : Msg :=
  dictInsert "validation_errors" (Val.strList [])
    (dictInsert "validation_status" (Val.str "VALID") m)

/-- `message['validation_status'] = 'INVALID'; message['validation_errors'] = errors`. -/
def setInvalid (m : Msg) (errs : List String) : Msg :=
  dictInsert "validation_errors" (Val.strList errs)
    (dictInsert "validation_status" (Val.str "INVALID") m)

/-- `self.MAX_ITERATIONS` of `EvaluatorOptimizerPattern`. -/
def MAX_ITERATIONS : ℕ := 3

/-- The evaluation oracle (`evaluate_message`), indexed by iteration number so
that every possible behaviour over time is covered. -/
abbrev EvalOracle := ℕ → Msg → Bool × List String

/-- The correction oracle, indexed likewise. -/
abbrev CorrOracle := ℕ → Msg → List String → OracleReply

/-- The `for iteration in range(self.MAX_ITERATIONS)` loop of
`process_with_evaluator_optimizer` for one message: `r` is the number of
remaining iterations, `it` the current iteration index.  Returns the final
message together with the number of evaluation calls and of correction
calls made. -/
def runLoop (eo : EvalOracle) (co : CorrOracle) : ℕ → ℕ → Msg → Msg × ℕ × ℕ
  | 0, _, m => (m, 0, 0)
  | r + 1, it, m =>
    let res := eo it m
    if res.1 then (setValid m, 1, 0)
    else if r = 0 then (setInvalid m res.2, 1, 0)
    else
      let out := runLoop eo co r (it + 1) (optimize_message (co it m res.2) m)
      (out.1, out.2.1 + 1, out.2.2 + 1)

/-- The correction loop applied to one message. -/
def processOne (eo : EvalOracle) (co : CorrOracle) (m : Msg) : Msg × ℕ × ℕ :=
  runLoop eo co MAX_ITERATIONS 0 m

/-- `EvaluatorOptimizerPattern.process_with_evaluator_optimizer`: the loop,
message by message. -/
def process_with_evaluator_optimizer (eo : EvalOracle) (co : CorrOracle)
    (msgs : List Msg) : List Msg :=
  msgs.map (fun m => (processOne eo co m).1)

/-- `message.get('message_id', 'unknown')` in `_process_message`. -/
def msgIdD (m : Msg) : String :=
  match lookupKey m "message_id" with
  | some (Val.str s) => s
  | _ => "unknown"

/-- `ParallelizationPattern._process_message`: run the agent, attach the
message id on success; on any exception return the risk-0 record with the
agent's class name and the error text. -/
def process_message (name : String) (f : Msg → Except String AgentScore)
    (m : Msg) : AgentScore :=
  match f m with
  | Except.ok r => { r with message_id := some (msgIdD m) }
  | Except.error e => ⟨name, 0, [], some e, none⟩

/-- An entry of `self.list_of_agents`: class name plus `analyze`. -/
abbrev Agent := String × (Msg → Except String AgentScore)

/-- `message['message_id']`, the key of the `future_to_msg` dict. -/
def idOf (m : Msg) : String :=
  match lookupKey m "message_id" with
  | some (Val.str s) => s
  | _ => ""

/-- The join step of `process_batch_parallel` for one dict entry: collect the
per-agent results, aggregate, and write the four fraud fields onto the
message. -/
def markMessage (agents : List Agent) (m : Msg) : Msg :=
  let agent_results := agents.map (fun ag => process_message ag.1 ag.2 m)
  let aggregated := aggregate_results agent_results
  dictInsert "fraud_reasons" (Val.strList aggregated.aggregated_reasons)
    (dictInsert "fraud_score" (Val.num aggregated.confidence)
      (dictInsert "fraud_status"
        (Val.str (if aggregated.is_fraudulent then "FRAUDULENT" else "CLEAN"))
        (dictInsert "fraud_analysis" (Val.scores agent_results) m)))

/-- The `future_to_msg` dict of `process_batch_parallel`: keyed by
`message['message_id']`, so a duplicate id overwrites the earlier entry. -/
def buildFutureDict (msgs : List Msg) : List (String × Msg) :=
  msgs.foldl (fun d m => dictInsert (idOf m) m d) []

/-- `ParallelizationPattern.process_batch_parallel`: build the id-keyed dict,
then produce one annotated message per dict entry, in dict order. -/
def process_batch_parallel (agents : List Agent) (msgs : List Msg) : List Msg :=
  (buildFutureDict msgs).map (fun kv => markMessage agents kv.2)

/-- The always-valid evaluation oracle. -/
def evalOK : EvalOracle := fun _ _ => (true, [])

/-- The always-invalid evaluation oracle. -/
def evalBad : EvalOracle := fun _ _ => (false, ["bad"])

/-- The unavailable correction oracle: every call raises. -/
def corrNoOracle : CorrOracle := fun _ _ _ => OracleReply.raises

/-- An agent whose `analyze` always raises. -/
def failAgent : Msg → Except String AgentScore := fun _ => Except.error "boom"

/-- Three sample agent records with risks 0.3, 0.6, 0.9. -/
def sampleScores : List AgentScore :=
  [⟨"A", 0.3, ["r1"], none, none⟩, ⟨"B", 0.6, [], none, none⟩, ⟨"C", 0.9, ["r2"], none, none⟩]

/-- A message whose sender and receiver BIC coincide. -/
def sameBicMsg : Msg :=
  [("sender_bic", Val.str "CHASUS33XXX"), ("receiver_bic", Val.str "CHASUS33XXX")]

/-- A message with a large round amount and a currency suffix. -/
def amountMsg : Msg := [("amount", Val.str "15000 USD")]

/-- A message whose sender BIC carries the high-risk country code IR. -/
def geoMsg : Msg := [("sender_bic", Val.str "BANKIR55")]

/-- The amended-C4 invariant: the amount field, when it holds a string, does
not consist of exactly one whitespace-separated token. -/
def amountNotBare (m : Msg) : Prop :=
  ∀ s, lookupKey m "amount" = some (Val.str s) → (pySplit s).length ≠ 1

/-- A message whose amount is a bare numeric string. -/
def msgBareAmount : Msg := [("message_id", Val.str "M1"), ("amount", Val.str "15000.00")]

/-- First message with id `"A"`. -/
def msgDupA : Msg := [("message_id", Val.str "A"), ("x", Val.str "first")]

/-- Second message with the same id `"A"`. -/
def msgDupB : Msg := [("message_id", Val.str "A"), ("x", Val.str "second")]

/-! ## Theorems -/

/-- Bridging lemma: a Python slice `cs[k:k+n]` satisfies a character predicate
elementwise iff the predicate holds at every absolute position `k + i`. -/
theorem slice_all_iff (p : Char → Bool) (cs : List Char) (k n : ℕ) (d : Char)
    (h : k + n ≤ cs.length) :
    (((cs.drop k).take n).all p = true) ↔
      ∀ i : Fin n, p (cs.getD (k + i.val) d) = true := by
  rw [List.all_eq_true]
  constructor
  · intro hall i
    have hik : k + i.val < cs.length := by
      have := i.isLt
      omega
    have hlt : i.val < ((cs.drop k).take n).length := by
      have := i.isLt
      simp only [List.length_take, List.length_drop]
      omega
    have hget : ((cs.drop k).take n)[i.val] = cs[k + i.val] := by
      simp [List.getElem_take, List.getElem_drop]
    have hmem : cs[k + i.val] ∈ (cs.drop k).take n := by
      rw [← hget]
      exact List.getElem_mem hlt
    have hp := hall _ hmem
    simpa [List.getD_eq_getElem?_getD, List.getElem?_eq_getElem hik] using hp
  · intro hf x hx
    obtain ⟨i, hi, rfl⟩ := List.mem_iff_getElem.mp hx
    have hin : i < n := by
      simp only [List.length_take, List.length_drop] at hi
      omega
    have hik : k + i < cs.length := by
      simp only [List.length_take, List.length_drop] at hi
      omega
    have hget : ((cs.drop k).take n)[i] = cs[k + i] := by
      simp [List.getElem_take, List.getElem_drop]
    rw [hget]
    have hp := hf ⟨i, hin⟩
    simpa [List.getD_eq_getElem?_getD, List.getElem?_eq_getElem hik] using hp

/-- A nonempty Python slice `cs[k:k+n]` passes a string-class check iff the
class predicate holds at every absolute position `k + i`. -/
theorem pyStrAll_slice_iff (p : Char → Bool) (cs : List Char) (k n : ℕ) (d : Char)
    (h : k + n ≤ cs.length) (hn : 0 < n) :
    (pyStrAll p ((cs.drop k).take n) = true) ↔
      ∀ i : Fin n, p (cs.getD (k + i.val) d) = true := by
  have hl : ((cs.drop k).take n).length = n := by
    simp only [List.length_take, List.length_drop]
    omega
  have hne : ((cs.drop k).take n).isEmpty = false := by
    cases hq : (cs.drop k).take n with
    | nil => rw [hq] at hl ; simp at hl ; omega
    | cons a t => rfl
  unfold pyStrAll
  rw [hne]
  simp only [Bool.not_false, Bool.true_and]
  exact slice_all_iff p cs k n d h

/-- C1: `_validate_bic` returns true iff the length is 8 or 11, positions 0–3
are alphabetic, positions 4–5 are alphabetic, positions 6–7 are alphanumeric,
and, for length 11, positions 8–10 are alphanumeric; moreover it is a total
boolean function of the input string, including the empty string and strings
shorter than 8 (the Python function indexes only through slicing, which never
raises). -/
theorem c1_validate_bic (bic : String) :
    (validate_bic bic = true ↔
      ((bic.data.length = 8 ∨ bic.data.length = 11) ∧
       (∀ i : Fin 4, pyIsAlpha (bic.data.getD i.val ' ') = true) ∧
       (∀ i : Fin 2, pyIsAlpha (bic.data.getD (4 + i.val) ' ') = true) ∧
       (∀ i : Fin 2, pyIsAlnum (bic.data.getD (6 + i.val) ' ') = true) ∧
       (bic.data.length = 11 →
         ∀ i : Fin 3, pyIsAlnum (bic.data.getD (8 + i.val) ' ') = true))) ∧
    (validate_bic bic = true ∨ validate_bic bic = false) := by
  refine ⟨?_, Bool.eq_false_or_eq_true _⟩
  by_cases h2 : bic.data.length = 8 ∨ bic.data.length = 11
  · have hemp : bic.data.isEmpty = false := by
      cases hd : bic.data with
      | nil => rw [hd] at h2 ; rcases h2 with h | h <;> simp at h
      | cons a t => rfl
    have hA := pyStrAll_slice_iff pyIsAlpha bic.data 0 4 ' ' (by omega) (by omega)
    have hB := pyStrAll_slice_iff pyIsAlpha bic.data 4 2 ' ' (by omega) (by omega)
    have hC := pyStrAll_slice_iff pyIsAlnum bic.data 6 2 ' ' (by omega) (by omega)
    have hval : validate_bic bic =
        (strIsAlpha (bic.data.take 4) && strIsAlpha ((bic.data.drop 4).take 2) &&
         strIsAlnum ((bic.data.drop 6).take 2) &&
         !(decide (bic.data.length = 11) && !(strIsAlnum ((bic.data.drop 8).take 3)))) := by
      unfold validate_bic
      have hc2 : (!(decide (bic.data.length = 8) || decide (bic.data.length = 11))) = false := by
        rcases h2 with h | h <;> simp [h]
      rw [hemp, hc2]
      cases hA' : strIsAlpha (bic.data.take 4) <;>
        cases hB' : strIsAlpha ((bic.data.drop 4).take 2) <;>
          cases hC' : strIsAlnum ((bic.data.drop 6).take 2) <;>
            cases hL : decide (bic.data.length = 11) <;>
              cases hD' : strIsAlnum ((bic.data.drop 8).take 3) <;>
                simp [hA', hB', hC', hL, hD']
    rw [hval]
    simp only [Bool.and_eq_true]
    constructor
    · rintro ⟨⟨⟨ha, hb⟩, hc⟩, hd⟩
      have ha' : pyStrAll pyIsAlpha ((bic.data.drop 0).take 4) = true := by
        rw [List.drop_zero]
        exact ha
      refine ⟨h2, fun i => by simpa using hA.mp ha' i, hB.mp hb, hC.mp hc, ?_⟩
      intro hl11 i
      have hL : decide (bic.data.length = 11) = true := decide_eq_true hl11
      rw [hL] at hd
      have hDt : strIsAlnum ((bic.data.drop 8).take 3) = true := by
        cases hD' : strIsAlnum ((bic.data.drop 8).take 3) with
        | false => rw [hD'] at hd ; simp at hd
        | true => rfl
      have hD := pyStrAll_slice_iff pyIsAlnum bic.data 8 3 ' ' (by omega) (by omega)
      exact hD.mp hDt i
    · rintro ⟨hl, hp1, hp2, hp3, hp4⟩
      refine ⟨⟨⟨?_, hB.mpr hp2⟩, hC.mpr hp3⟩, ?_⟩
      · have := hA.mpr (fun i => by simpa using hp1 i)
        rw [List.drop_zero] at this
        exact this
      · cases hL : decide (bic.data.length = 11) with
        | false => simp
        | true =>
          have hl11 : bic.data.length = 11 := of_decide_eq_true hL
          have hD := pyStrAll_slice_iff pyIsAlnum bic.data 8 3 ' ' (by omega) (by omega)
          have hDt := hD.mpr (hp4 hl11)
          simp [strIsAlnum, hDt]
  · have hval : validate_bic bic = false := by
      unfold validate_bic
      have h8 : decide (bic.data.length = 8) = false := by
        simp only [decide_eq_false_iff_not]
        exact fun hc => h2 (Or.inl hc)
      have h11 : decide (bic.data.length = 11) = false := by
        simp only [decide_eq_false_iff_not]
        exact fun hc => h2 (Or.inr hc)
      rw [h8, h11]
      cases hempty : bic.data.isEmpty <;> simp [hempty]
    rw [hval]
    constructor
    · intro h
      exact absurd h (by decide)
    · rintro ⟨hl, -, -, -, -⟩
      exact absurd hl h2

/-- Witness for C1 at the concrete BIC `"CHASUS33"`. -/
theorem c1_witness : validate_bic "CHASUS33" = true :=
  (c1_validate_bic "CHASUS33").1.mpr (by decide)

/-- With `r` remaining iterations the loop makes at most `r` evaluation calls
and at most `r - 1` correction calls, whatever the oracles do. -/
theorem runLoop_counts (eo : EvalOracle) (co : CorrOracle) :
    ∀ (r it : ℕ) (m : Msg),
      (runLoop eo co r it m).2.1 ≤ r ∧ (runLoop eo co r it m).2.2 ≤ r - 1 := by
  intro r
  induction r with
  | zero =>
    intro it m
    simp [runLoop]
  | succ r ih =>
    intro it m
    by_cases hres : (eo it m).1 = true
    · simp [runLoop, hres]
    · by_cases hr : r = 0
      · subst hr
        simp [runLoop, hres]
      · have h := ih (it + 1) (optimize_message (co it m (eo it m).2) m)
        simp only [runLoop, hres, if_false, hr, Bool.false_eq_true]
        omega

/-- C2: for every message and every behaviour of the two oracles, the
correction loop makes at most 3 evaluation calls and at most 2 correction
calls (and, being a total Lean function, terminates); if the first evaluation
says valid, it makes exactly 1 evaluation call and 0 correction calls and
returns the message marked valid. -/
theorem c2_loop_bounds (eo : EvalOracle) (co : CorrOracle) (m : Msg) :
    (processOne eo co m).2.1 ≤ 3 ∧ (processOne eo co m).2.2 ≤ 2 ∧
      ((eo 0 m).1 = true → processOne eo co m = (setValid m, 1, 0)) := by
  have h := runLoop_counts eo co MAX_ITERATIONS 0 m
  refine ⟨h.1, h.2, ?_⟩
  intro hv
  unfold processOne MAX_ITERATIONS
  simp [runLoop, hv]

/-- Witness for C2: a first-evaluation-valid run makes 1 evaluation call and
0 correction calls. -/
theorem c2_witness :
    (evalOK 0 []).1 = true ∧ processOne evalOK corrNoOracle [] = (setValid [], 1, 0) :=
  ⟨rfl, (c2_loop_bounds evalOK corrNoOracle []).2.2 rfl⟩

/-- Summing field `f` by a left fold equals adding the sum of the mapped list. -/
theorem foldl_add_map (f : AgentScore → ℚ) :
    ∀ (l : List AgentScore) (a : ℚ),
      l.foldl (fun acc r => acc + f r) a = a + (l.map f).sum := by
  intro l
  induction l with
  | nil =>
    intro a
    simp
  | cons x t ih =>
    intro a
    simp only [List.foldl_cons, List.map_cons, List.sum_cons, ih]
    ring

/-- Appending one rendered element per iteration equals appending the map. -/
theorem foldl_append_map {α : Type} (g : α → String) :
    ∀ (l : List α) (acc : List String),
      l.foldl (fun a x => a ++ [g x]) acc = acc ++ l.map g := by
  intro l
  induction l with
  | nil =>
    intro acc
    simp
  | cons x t ih =>
    intro acc
    simp [ih]

/-- The nested reason-collection loop of `aggregate_results` equals a flat
map over the agent records. -/
theorem foldl_reasons :
    ∀ (l : List AgentScore) (acc : List String),
      l.foldl
        (fun a r =>
          r.fraud_reasons.foldl (fun a2 s => a2 ++ ["[" ++ r.agent ++ "] " ++ s]) a)
        acc
      = acc ++ l.flatMap (fun r => r.fraud_reasons.map (fun s => "[" ++ r.agent ++ "] " ++ s)) := by
  intro l
  induction l with
  | nil =>
    intro acc
    simp
  | cons x t ih =>
    intro acc
    simp only [List.foldl_cons, List.flatMap_cons]
    rw [foldl_append_map, ih, List.append_assoc]

/-- C3: `aggregate_results` on the empty list returns exactly the zero
verdict; on a non-empty list it returns `is_fraudulent = (avg ≥ 0.5)`,
`confidence = round(avg * 100, 2)`, `total_risk_score = round(avg, 3)` with
`avg` the mean of the risk scores, and the reasons concatenated in
agent-then-reason order with the `"[<agent>] "` marker. -/
theorem c3_aggregate :
    aggregate_results [] = ⟨false, 0, 0, []⟩ ∧
    ∀ rs : List AgentScore, rs ≠ [] →
      ((aggregate_results rs).is_fraudulent = true ↔
        (rs.map (fun r => r.risk_score)).sum / (rs.length : ℚ) ≥ (0.5 : ℚ)) ∧
      (aggregate_results rs).confidence =
        pyRound ((rs.map (fun r => r.risk_score)).sum / (rs.length : ℚ) * 100) 2 ∧
      (aggregate_results rs).total_risk_score =
        pyRound ((rs.map (fun r => r.risk_score)).sum / (rs.length : ℚ)) 3 ∧
      (aggregate_results rs).aggregated_reasons =
        rs.flatMap (fun r => r.fraud_reasons.map (fun s => "[" ++ r.agent ++ "] " ++ s)) := by
  constructor
  · rfl
  · intro rs hne
    have hemp : rs.isEmpty = false := by
      cases rs with
      | nil => exact absurd rfl hne
      | cons a t => rfl
    unfold aggregate_results
    rw [hemp]
    simp only [Bool.false_eq_true, if_false, foldl_add_map, foldl_reasons, zero_add,
      List.nil_append]
    refine ⟨?_, by simp, by simp, by simp⟩
    by_cases h : (rs.map (fun r => r.risk_score)).sum / (rs.length : ℚ) ≥ (0.5 : ℚ)
    · simp [h]
    · simp [h]

/-- Witness for C3 on the three sample records. -/
theorem c3_witness :
    sampleScores ≠ [] ∧
    (aggregate_results sampleScores).confidence =
      pyRound ((sampleScores.map (fun r => r.risk_score)).sum / (sampleScores.length : ℚ) * 100) 2 :=
  ⟨by decide, (c3_aggregate.2 sampleScores (by decide)).2.1⟩

/-- C9: the per-task wrapper `_process_message` is total — for every agent
function and message it returns a record rather than an exception; if the
agent's `analyze` raises, the failure is converted into a record with the
agent's name, risk 0, no fraud reasons and the error text attached; if it
succeeds, the agent's own record is returned with the message id attached. -/
theorem c9_process_message (name : String) (f : Msg → Except String AgentScore) (m : Msg) :
    (∀ e, f m = Except.error e →
      process_message name f m = ⟨name, 0, [], some e, none⟩) ∧
    (∀ r, f m = Except.ok r →
      process_message name f m = { r with message_id := some (msgIdD m) }) := by
  constructor
  · intro e he
    unfold process_message
    rw [he]
  · intro r hr
    unfold process_message
    rw [hr]

/-- Witness for C9: a raising agent still contributes a risk-0 record. -/
theorem c9_witness :
    failAgent [] = Except.error "boom" ∧
    process_message "X" failAgent [] = ⟨"X", 0, [], some "boom", none⟩ :=
  ⟨rfl, (c9_process_message "X" failAgent []).1 "boom" rfl⟩

/-- `Except.bind` on a success just applies the continuation. -/
theorem except_ok_bind {e a b : Type} (x : a) (f : a → Except e b) :
    (Except.ok x : Except e a).bind f = f x := rfl

/-- Closed form of one conditional scoring loop: the accumulated risk grows
by the weight times the number of matches, and the reasons by the rendered
matches in list order. -/
theorem scoreLoop_eq (w : ℚ) (cond : String → Bool) (reasonOf : String → String) :
    ∀ (l : List String) (st : ℚ × List String),
      scoreLoop w cond reasonOf l st =
        (st.1 + w * (l.countP cond : ℚ), st.2 ++ (l.filter cond).map reasonOf) := by
  intro l
  induction l with
  | nil =>
    intro st
    simp [scoreLoop]
  | cons x t ih =>
    intro st
    simp only [scoreLoop, List.foldl_cons] at ih ⊢
    by_cases hc : cond x = true
    · rw [if_pos hc, ih, List.countP_cons_of_pos _ _ hc, List.filter_cons_of_pos hc]
      refine Prod.ext ?_ ?_
      · push_cast
        ring
      · simp
    · rw [if_neg hc, ih, List.countP_cons_of_neg _ _ hc, List.filter_cons_of_neg hc]

/-- C5: on messages whose BIC and remittance fields are strings (or absent,
defaulting to the empty string), the pattern agent returns risk
`min(1, 0.4 * <matching patterns> + 0.5 * <same nonempty BICs> +
0.2 * <matching keywords>)`, each high-risk pattern being counted once if it
occurs in either upper-cased BIC and each suspicious keyword once if it
occurs in the lower-cased remittance, with the corresponding reasons in
check order; in particular equal nonempty sender and receiver BICs
`"CHASUS33XXX"` yield the reason `"Same sender and receiver BIC"` and risk
at least 0.5. -/
theorem c5_pattern_agent (m : Msg) (sb rb rem : String)
    (hs : strFieldD m "sender_bic" "" = Except.ok sb)
    (hr : strFieldD m "receiver_bic" "" = Except.ok rb)
    (hm : strFieldD m "remittance_info" "" = Except.ok rem) :
    (pattern_analyze m = Except.ok
      ⟨"FraudPatternDetectionAgent",
       min ((0.4 : ℚ) * (HIGH_RISK_PATTERNS.countP (fun p =>
              occursIn p.data (toUpperStr sb).data ||
              occursIn p.data (toUpperStr rb).data) : ℚ)
            + (if sb ≠ "" ∧ sb = rb then (0.5 : ℚ) else 0)
            + (0.2 : ℚ) * (SUSPICIOUS_KEYWORDS.countP (fun k =>
              occursIn k.data (toLowerStr rem).data) : ℚ)) 1,
       (HIGH_RISK_PATTERNS.filter (fun p =>
              occursIn p.data (toUpperStr sb).data ||
              occursIn p.data (toUpperStr rb).data)).map
           (fun p => "Test/fake pattern detected in BIC: " ++ p)
         ++ (if sb ≠ "" ∧ sb = rb then ["Same sender and receiver BIC"] else [])
         ++ (SUSPICIOUS_KEYWORDS.filter (fun k =>
              occursIn k.data (toLowerStr rem).data)).map
           (fun k => "Suspicious keyword in remittance: " ++ k),
       none, none⟩) ∧
    (sb = "CHASUS33XXX" → rb = "CHASUS33XXX" →
      ∃ r, pattern_analyze m = Except.ok r ∧
        "Same sender and receiver BIC" ∈ r.fraud_reasons ∧
        (0.5 : ℚ) ≤ r.risk_score) := by
  have heq : pattern_analyze m = Except.ok
      ⟨"FraudPatternDetectionAgent",
       min ((0.4 : ℚ) * (HIGH_RISK_PATTERNS.countP (fun p =>
              occursIn p.data (toUpperStr sb).data ||
              occursIn p.data (toUpperStr rb).data) : ℚ)
            + (if sb ≠ "" ∧ sb = rb then (0.5 : ℚ) else 0)
            + (0.2 : ℚ) * (SUSPICIOUS_KEYWORDS.countP (fun k =>
              occursIn k.data (toLowerStr rem).data) : ℚ)) 1,
       (HIGH_RISK_PATTERNS.filter (fun p =>
              occursIn p.data (toUpperStr sb).data ||
              occursIn p.data (toUpperStr rb).data)).map
           (fun p => "Test/fake pattern detected in BIC: " ++ p)
         ++ (if sb ≠ "" ∧ sb = rb then ["Same sender and receiver BIC"] else [])
         ++ (SUSPICIOUS_KEYWORDS.filter (fun k =>
              occursIn k.data (toLowerStr rem).data)).map
           (fun k => "Suspicious keyword in remittance: " ++ k),
       none, none⟩ := by
    unfold pattern_analyze
    rw [hs, hr, hm]
    simp only [bind, except_ok_bind, scoreLoop_eq]
    by_cases hsame : sb ≠ "" ∧ sb = rb
    · simp only [eq_true hsame, if_true, Except.ok.injEq, AgentScore.mk.injEq,
        true_and, and_true]
      constructor
      · congr 1
        ring
      · simp [List.append_assoc]
    · simp only [eq_false hsame, if_false, Except.ok.injEq, AgentScore.mk.injEq,
        true_and, and_true]
      constructor
      · congr 1
        ring
      · simp [List.append_assoc]
  refine ⟨heq, ?_⟩
  intro hsb hrb
  subst hsb
  subst hrb
  refine ⟨_, heq, ?_, ?_⟩
  · have hcond : ("CHASUS33XXX" : String) ≠ "" ∧ ("CHASUS33XXX" : String) = "CHASUS33XXX" :=
      ⟨by decide, rfl⟩
    show "Same sender and receiver BIC" ∈ _
    rw [if_pos hcond]
    exact List.mem_append_left _ (List.mem_append_right _ (by simp))
  · have hcond : ("CHASUS33XXX" : String) ≠ "" ∧ ("CHASUS33XXX" : String) = "CHASUS33XXX" :=
      ⟨by decide, rfl⟩
    show (0.5 : ℚ) ≤ min _ 1
    rw [if_pos hcond]
    have h1 : (0 : ℚ) ≤ (0.4 : ℚ) * (HIGH_RISK_PATTERNS.countP (fun p =>
        occursIn p.data (toUpperStr "CHASUS33XXX").data ||
        occursIn p.data (toUpperStr "CHASUS33XXX").data) : ℚ) := by
      positivity
    have h2 : (0 : ℚ) ≤ (0.2 : ℚ) * (SUSPICIOUS_KEYWORDS.countP (fun k =>
        occursIn k.data (toLowerStr rem).data) : ℚ) := by
      positivity
    refine le_min (by linarith) (by norm_num)

/-- Witness for C5 on the equal-BIC message. -/
theorem c5_witness :
    ∃ r, pattern_analyze sameBicMsg = Except.ok r ∧
      "Same sender and receiver BIC" ∈ r.fraud_reasons ∧ (0.5 : ℚ) ≤ r.risk_score :=
  (c5_pattern_agent sameBicMsg "CHASUS33XXX" "CHASUS33XXX" "" rfl rfl rfl).2 rfl rfl

/-- C7: the amount agent parses the amount by stripping every character other
than digits and dots; on a successful parse it scores 0.3 for amount over
10,000, plus 0.2 for a positive multiple of 1,000, plus 0.1 for amount over
100,000 with a non-integral remainder, clamped at 1; a parse failure (or a
non-string amount) yields risk 0, no reasons and no exception.  The last two
conjuncts identify the code's modulo tests with the claim's arithmetic
phrasing. -/
theorem c7_amount_agent (m : Msg) :
    (∀ s a, amountField m = some s → pyFloat (stripAmount s) = some a →
      amount_analyze m = ⟨"FraudAmountDetectionAgent",
        min ((if a > 10000 then (0.3 : ℚ) else 0)
             + (if isMultOf1000 a ∧ a > 0 then (0.2 : ℚ) else 0)
             + (if a > 100000 ∧ ¬ intValued a then (0.1 : ℚ) else 0)) 1,
        ((if a > 10000 then ["High amount transaction: " ++ qstr a] else [])
          ++ (if isMultOf1000 a ∧ a > 0 then ["Suspiciously round amount: " ++ qstr a] else [])
          ++ (if a > 100000 ∧ ¬ intValued a then
                ["Large amount with unusual decimal precision"] else [])),
        none, none⟩) ∧
    (∀ s, amountField m = some s → pyFloat (stripAmount s) = none →
      amount_analyze m = ⟨"FraudAmountDetectionAgent", 0, [], none, none⟩) ∧
    (amountField m = none →
      amount_analyze m = ⟨"FraudAmountDetectionAgent", 0, [], none, none⟩) ∧
    (∀ a : ℚ, (isMultOf1000 a ∧ a > 0) ↔ (0 < a ∧ ∃ k : ℤ, a = 1000 * (k : ℚ))) ∧
    (∀ a : ℚ, intValued a ↔ ∃ k : ℤ, a = (k : ℚ)) := by
  refine ⟨?_, ?_, ?_, ?_, ?_⟩
  · intro s a hsf hpf
    simp only [amount_analyze, hsf, hpf]
    by_cases h1 : a > 10000 <;> by_cases h2 : isMultOf1000 a ∧ a > 0 <;>
      by_cases h3 : a > 100000 ∧ ¬ intValued a <;>
        simp [h1, h2, h3]
  · intro s hsf hpf
    simp only [amount_analyze, hsf, hpf]
  · intro hsf
    simp only [amount_analyze, hsf]
  · intro a
    constructor
    · rintro ⟨hm, hpos⟩
      unfold isMultOf1000 at hm
      obtain ⟨hden, hmod⟩ := hm
      refine ⟨hpos, ?_⟩
      obtain ⟨k, hk⟩ := Int.dvd_of_emod_eq_zero hmod
      refine ⟨k, ?_⟩
      have ha : ((a.num : ℚ)) = a := (Rat.den_eq_one_iff a).mp hden
      rw [← ha, hk]
      push_cast
      ring
    · rintro ⟨hpos, k, rfl⟩
      have hcast : ((1000 * k : ℤ) : ℚ) = 1000 * (k : ℚ) := by
        push_cast
        ring
      refine ⟨?_, hpos⟩
      unfold isMultOf1000
      constructor
      · rw [← hcast, Rat.den_intCast]
      · rw [← hcast, Rat.num_intCast]
        exact Int.mul_emod_right 1000 k
  · intro a
    unfold intValued
    rw [Rat.den_eq_one_iff]
    constructor
    · intro h
      exact ⟨a.num, h.symm⟩
    · rintro ⟨k, rfl⟩
      rw [Rat.num_intCast]

/-- Witness for C7 on the `"15000 USD"` amount. -/
theorem c7_witness :
    amountField amountMsg = some "15000 USD" ∧
    pyFloat (stripAmount "15000 USD") = some ((15000 : ℕ) : ℚ) ∧
    amount_analyze amountMsg = ⟨"FraudAmountDetectionAgent",
      min ((if ((15000 : ℕ) : ℚ) > 10000 then (0.3 : ℚ) else 0)
           + (if isMultOf1000 ((15000 : ℕ) : ℚ) ∧ ((15000 : ℕ) : ℚ) > 0 then (0.2 : ℚ) else 0)
           + (if ((15000 : ℕ) : ℚ) > 100000 ∧ ¬ intValued ((15000 : ℕ) : ℚ) then (0.1 : ℚ) else 0)) 1,
      ((if ((15000 : ℕ) : ℚ) > 10000 then
          ["High amount transaction: " ++ qstr ((15000 : ℕ) : ℚ)] else [])
        ++ (if isMultOf1000 ((15000 : ℕ) : ℚ) ∧ ((15000 : ℕ) : ℚ) > 0 then
          ["Suspiciously round amount: " ++ qstr ((15000 : ℕ) : ℚ)] else [])
        ++ (if ((15000 : ℕ) : ℚ) > 100000 ∧ ¬ intValued ((15000 : ℕ) : ℚ) then
          ["Large amount with unusual decimal precision"] else [])),
      none, none⟩ :=
  ⟨rfl, rfl, (c7_amount_agent amountMsg).1 "15000 USD" ((15000 : ℕ) : ℚ) rfl rfl⟩

/-- C8: on messages whose BIC fields are strings (or absent, defaulting to
the empty string), the geographic agent slices characters 4–5 out of each
BIC and adds 0.4 per side whose slice is a high-risk country code, clamped
at 1; a BIC shorter than 6 characters yields a slice shorter than 2 that can
never be in the high-risk set, so it contributes no score; and a sender
country code `"IR"` gives risk at least 0.4 and a reason mentioning `"IR"`. -/
theorem c8_geo_agent (m : Msg) (sb rb : String)
    (hs : strFieldD m "sender_bic" "" = Except.ok sb)
    (hr : strFieldD m "receiver_bic" "" = Except.ok rb) :
    (geo_analyze m = ⟨"GeographicRiskAgent",
        min ((if countryOf sb ∈ HIGH_RISK_COUNTRIES then (0.4 : ℚ) else 0)
             + (if countryOf rb ∈ HIGH_RISK_COUNTRIES then (0.4 : ℚ) else 0)) 1,
        ((if countryOf sb ∈ HIGH_RISK_COUNTRIES then
            ["High-risk sender country: " ++ countryOf sb] else [])
          ++ (if countryOf rb ∈ HIGH_RISK_COUNTRIES then
            ["High-risk receiver country: " ++ countryOf rb] else [])),
        none, none⟩) ∧
    (∀ s : String, s.data.length < 6 → countryOf s ∉ HIGH_RISK_COUNTRIES) ∧
    (countryOf sb = "IR" →
      (0.4 : ℚ) ≤ (geo_analyze m).risk_score ∧
        ∃ r ∈ (geo_analyze m).fraud_reasons, occursIn "IR".data r.data = true) := by
  have heq : geo_analyze m = ⟨"GeographicRiskAgent",
      min ((if countryOf sb ∈ HIGH_RISK_COUNTRIES then (0.4 : ℚ) else 0)
           + (if countryOf rb ∈ HIGH_RISK_COUNTRIES then (0.4 : ℚ) else 0)) 1,
      ((if countryOf sb ∈ HIGH_RISK_COUNTRIES then
          ["High-risk sender country: " ++ countryOf sb] else [])
        ++ (if countryOf rb ∈ HIGH_RISK_COUNTRIES then
          ["High-risk receiver country: " ++ countryOf rb] else [])),
      none, none⟩ := by
    simp only [geo_analyze, hs, hr]
    by_cases m1 : countryOf sb ∈ HIGH_RISK_COUNTRIES <;>
      by_cases m2 : countryOf rb ∈ HIGH_RISK_COUNTRIES <;>
        simp [m1, m2]
  refine ⟨heq, ?_, ?_⟩
  · intro s hlen hmem
    have hclen : (countryOf s).data.length < 2 := by
      show ((s.data.drop 4).take 2).length < 2
      simp only [List.length_take, List.length_drop]
      have h := Nat.min_le_right 2 (s.data.length - 4)
      omega
    simp only [HIGH_RISK_COUNTRIES, List.mem_cons, List.not_mem_nil, or_false] at hmem
    rcases hmem with h | h | h | h <;>
      · rw [h] at hclen
        exact absurd hclen (by decide)
  · intro hIR
    have hmem : countryOf sb ∈ HIGH_RISK_COUNTRIES := by
      rw [hIR]
      decide
    constructor
    · simp only [heq]
      rw [if_pos hmem]
      refine le_min ?_ (by norm_num)
      have h0 : (0 : ℚ) ≤ (if countryOf rb ∈ HIGH_RISK_COUNTRIES then (0.4 : ℚ) else 0) := by
        by_cases h : countryOf rb ∈ HIGH_RISK_COUNTRIES <;> simp [h] <;> norm_num
      linarith
    · simp only [heq]
      refine ⟨"High-risk sender country: " ++ countryOf sb, ?_, ?_⟩
      · rw [if_pos hmem]
        exact List.mem_append_left _ (by simp)
      · rw [hIR]
        decide

/-- Witness for C8 on the IR-country sender BIC. -/
theorem c8_witness :
    countryOf "BANKIR55" = "IR" ∧
    (0.4 : ℚ) ≤ (geo_analyze geoMsg).risk_score ∧
      ∃ r ∈ (geo_analyze geoMsg).fraud_reasons, occursIn "IR".data r.data = true :=
  ⟨by decide, (c8_geo_agent geoMsg "BANKIR55" "" rfl rfl).2.2 (by decide)⟩

/-- Looking up the key just assigned returns the new value (Python dict
overwrite semantics). -/
theorem lookupKey_dictInsert_self {α : Type} (k : String) (v : α)
    (d : List (String × α)) : lookupKey (dictInsert k v d) k = some v := by
  induction d with
  | nil =>
    simp [dictInsert, lookupKey]
  | cons kv rest ih =>
    obtain ⟨k2, v2⟩ := kv
    unfold dictInsert
    by_cases h : k2 = k
    · rw [if_pos h]
      unfold lookupKey
      rw [if_pos h]
    · rw [if_neg h]
      unfold lookupKey
      rw [if_neg h]
      exact ih

/-- Assigning one key leaves the other keys' lookups unchanged. -/
theorem lookupKey_dictInsert_ne {α : Type} (k k2 : String) (v : α)
    (d : List (String × α)) (h : k ≠ k2) :
    lookupKey (dictInsert k v d) k2 = lookupKey d k2 := by
  induction d with
  | nil =>
    simp [dictInsert, lookupKey, h]
  | cons kv rest ih =>
    obtain ⟨k3, v3⟩ := kv
    unfold dictInsert
    by_cases h2 : k3 = k
    · rw [if_pos h2]
      unfold lookupKey
      by_cases h3 : k3 = k2
      · exact absurd (h2.symm.trans h3) h
      · rw [if_neg h3, if_neg h3]
    · rw [if_neg h2]
      unfold lookupKey
      by_cases h3 : k3 = k2
      · rw [if_pos h3, if_pos h3]
      · rw [if_neg h3, if_neg h3]
        exact ih

/-- Marking a message valid does not touch its amount. -/
theorem lookupKey_setValid_amount (m : Msg) :
    lookupKey (setValid m) "amount" = lookupKey m "amount" := by
  unfold setValid
  rw [lookupKey_dictInsert_ne _ _ _ _ (by decide),
    lookupKey_dictInsert_ne _ _ _ _ (by decide)]

/-- Marking a message invalid does not touch its amount. -/
theorem lookupKey_setInvalid_amount (m : Msg) (errs : List String) :
    lookupKey (setInvalid m errs) "amount" = lookupKey m "amount" := by
  unfold setInvalid
  rw [lookupKey_dictInsert_ne _ _ _ _ (by decide),
    lookupKey_dictInsert_ne _ _ _ _ (by decide)]

/-- Every chunk produced by the splitter is nonempty and whitespace-free,
provided the running chunk is whitespace-free. -/
theorem splitWsAux_chunks :
    ∀ (cs acc : List Char), (∀ c ∈ acc, pySpace c = false) →
      ∀ t ∈ splitWsAux cs acc, t ≠ [] ∧ ∀ c ∈ t, pySpace c = false := by
  intro cs
  induction cs with
  | nil =>
    intro acc hacc t ht
    unfold splitWsAux at ht
    by_cases hae : acc.isEmpty = true
    · rw [if_pos hae] at ht
      exact absurd ht (List.not_mem_nil t)
    · rw [if_neg hae] at ht
      have ht2 : t = acc.reverse := by simpa using ht
      subst ht2
      constructor
      · simp only [ne_eq, List.reverse_eq_nil_iff]
        intro hc
        rw [hc] at hae
        exact hae rfl
      · intro c hc
        exact hacc c (by simpa using hc)
  | cons c cs ih =>
    intro acc hacc t ht
    unfold splitWsAux at ht
    by_cases hsp : pySpace c = true
    · rw [if_pos hsp] at ht
      by_cases hae : acc.isEmpty = true
      · rw [if_pos hae] at ht
        exact ih [] (by simp) t ht
      · rw [if_neg hae] at ht
        rcases List.mem_cons.mp ht with h | h
        · subst h
          constructor
          · simp only [ne_eq, List.reverse_eq_nil_iff]
            intro hc
            rw [hc] at hae
            exact hae rfl
          · intro x hx
            exact hacc x (by simpa using hx)
        · exact ih [] (by simp) t h
    · rw [if_neg hsp] at ht
      refine ih (c :: acc) ?_ t ht
      intro x hx
      rcases List.mem_cons.mp hx with h | h
      · subst h
        exact Bool.not_eq_true _ ▸ (by simpa using hsp)
      · exact hacc x h

/-- Feeding a whitespace-free chunk to the splitter just accumulates it. -/
theorem splitWsAux_chunk_append :
    ∀ (t rest acc : List Char), (∀ c ∈ t, pySpace c = false) →
      splitWsAux (t ++ rest) acc = splitWsAux rest (t.reverse ++ acc) := by
  intro t
  induction t with
  | nil =>
    intro rest acc h
    simp
  | cons c t ih =>
    intro rest acc h
    have hc : pySpace c = false := h c (by simp)
    have hstep : splitWsAux (c :: (t ++ rest)) acc = splitWsAux (t ++ rest) (c :: acc) := by
      simp only [splitWsAux]
      rw [if_neg (by rw [hc] ; exact Bool.false_ne_true)]
    calc splitWsAux ((c :: t) ++ rest) acc
        = splitWsAux (t ++ rest) (c :: acc) := hstep
      _ = splitWsAux rest (t.reverse ++ c :: acc) :=
          ih rest (c :: acc) (fun x hx => h x (by simp [hx]))
      _ = splitWsAux rest ((c :: t).reverse ++ acc) := by
          rw [List.reverse_cons, List.append_assoc, List.singleton_append]

/-- Splitting a nonempty whitespace-free token followed by `" USD"` gives
exactly the token and `"USD"`. -/
theorem pySplit_token_usd (t : List Char) (hne : t ≠ [])
    (hns : ∀ c ∈ t, pySpace c = false) :
    splitWsAux (t ++ (" USD").data) [] = [t, ("USD").data] := by
  rw [splitWsAux_chunk_append t (" USD").data [] hns]
  rw [List.append_nil]
  show splitWsAux (' ' :: ("USD").data) t.reverse = _
  unfold splitWsAux
  rw [if_pos (by rfl)]
  have hre : t.reverse.isEmpty = false := by
    cases hq : t.reverse with
    | nil => exact absurd (List.reverse_eq_nil_iff.mp hq) hne
    | cons a l => rfl
  rw [if_neg (by rw [hre] ; exact Bool.false_ne_true)]
  rw [List.reverse_reverse]
  rfl

/-- After the local repair the amount, when a string, never consists of
exactly one whitespace token: a single token gets `" USD"` appended, and the
other shapes are left as they are. -/
theorem fixAmount_amountNotBare (m : Msg) : amountNotBare (fixAmount m) := by
  intro s hs
  unfold fixAmount at hs
  cases hq : lookupKey m "amount" with
  | none =>
    rw [hq] at hs
    simp only [] at hs
    rw [hq] at hs
    exact absurd hs (by simp)
  | some v =>
    cases v with
    | str s0 =>
      rw [hq] at hs
      simp only [] at hs
      cases hsp : pySplit s0 with
      | nil =>
        rw [hsp] at hs
        rw [hq] at hs
        have hss : s = s0 := by
          have := Option.some.inj hs
          exact (Val.str.inj this).symm
        subst hss
        rw [hsp]
        simp
      | cons t rest =>
        cases rest with
        | nil =>
          rw [hsp] at hs
          rw [lookupKey_dictInsert_self] at hs
          have hss : s = String.mk (t ++ (" USD").data) := by
            have := Option.some.inj hs
            exact (Val.str.inj this).symm
          subst hss
          have hchunk := splitWsAux_chunks s0.data [] (by simp) t (by rw [← pySplit, hsp] ; simp)
          show (pySplit (String.mk (t ++ (" USD").data))).length ≠ 1
          unfold pySplit
          show (splitWsAux (t ++ (" USD").data) []).length ≠ 1
          rw [pySplit_token_usd t hchunk.1 hchunk.2]
          simp
        | cons t2 rest2 =>
          rw [hsp] at hs
          rw [hq] at hs
          have hss : s = s0 := by
            have := Option.some.inj hs
            exact (Val.str.inj this).symm
          subst hss
          rw [hsp]
          simp
    | strList l =>
      rw [hq] at hs
      simp only [] at hs
      rw [hq] at hs
      exact absurd (Option.some.inj hs) (by simp)
    | num q =>
      rw [hq] at hs
      simp only [] at hs
      rw [hq] at hs
      exact absurd (Option.some.inj hs) (by simp)
    | scores l =>
      rw [hq] at hs
      simp only [] at hs
      rw [hq] at hs
      exact absurd (Option.some.inj hs) (by simp)
    | other =>
      rw [hq] at hs
      simp only [] at hs
      rw [hq] at hs
      exact absurd (Option.some.inj hs) (by simp)

/-- The optimisation step always re-establishes the amount invariant,
whatever the oracle replied. -/
theorem optimize_amountNotBare (reply : OracleReply) (m : Msg) :
    amountNotBare (optimize_message reply m) :=
  fixAmount_amountNotBare (applyReply reply m)

/-- The loop propagates the amount invariant: it holds at the end as soon as
it holds at entry or at least one correction was made. -/
theorem runLoop_amountNotBare (eo : EvalOracle) (co : CorrOracle) :
    ∀ (r it : ℕ) (m : Msg),
      (amountNotBare m ∨ 1 ≤ (runLoop eo co r it m).2.2) →
      amountNotBare (runLoop eo co r it m).1 := by
  intro r
  induction r with
  | zero =>
    intro it m h
    simp only [runLoop] at h ⊢
    rcases h with h | h
    · exact h
    · exact absurd h (by omega)
  | succ r ih =>
    intro it m h
    by_cases hres : (eo it m).1 = true
    · simp only [runLoop, if_pos hres] at h ⊢
      rcases h with h | h
      · intro s hs
        rw [lookupKey_setValid_amount] at hs
        exact h s hs
      · exact absurd h (by omega)
    · by_cases hr : r = 0
      · subst hr
        have hred : runLoop eo co 1 it m = (setInvalid m (eo it m).2, 1, 0) := by
          simp only [runLoop]
          rw [if_neg hres, if_pos trivial]
        rw [hred] at h ⊢
        rcases h with h | h
        · show amountNotBare (setInvalid m (eo it m).2)
          intro s hs
          rw [lookupKey_setInvalid_amount] at hs
          exact h s hs
        · simp only [] at h
          exact absurd h (by omega)
      · have hP : amountNotBare (optimize_message (co it m (eo it m).2) m) :=
          optimize_amountNotBare _ _
        have hrec := ih (it + 1) (optimize_message (co it m (eo it m).2) m) (Or.inl hP)
        simp only [runLoop, if_neg hres, if_neg hr]
        exact hrec

/-- C4, counterexample to the claim as stated: with an evaluation oracle that
declares the message valid on the first iteration, the correction loop ends
with the amount still equal to the bare numeric single-token string
`"15000.00"` — no currency token is attached on that path. -/
theorem c4_counterexample :
    lookupKey (processOne evalOK corrNoOracle msgBareAmount).1 "amount"
      = some (Val.str "15000.00") ∧
    (pySplit "15000.00").length = 1 ∧
    ("15000.00" : String).data.all (fun c => c.isDigit || c = '.') = true :=
  ⟨rfl, rfl, rfl⟩

/-- C4 (amended): for every message on which the correction loop performs at
least one correction call, the amount field after the loop, when it holds a
string, is never a single bare whitespace token — in particular never a bare
numeric string with no currency suffix.  (A message that is valid on the
first evaluation bypasses every correction and keeps its amount unchanged,
which is what the counterexample exhibits.) -/
theorem c4_amended (eo : EvalOracle) (co : CorrOracle) (m : Msg)
    (h : 1 ≤ (processOne eo co m).2.2) :
    amountNotBare (processOne eo co m).1 :=
  runLoop_amountNotBare eo co MAX_ITERATIONS 0 m (Or.inr h)

/-- Witness for the amended C4: the always-invalid oracle run corrects the
bare amount, and the resulting `"15000.00 USD"` is indeed not a single
token. -/
theorem c4_witness :
    1 ≤ (processOne evalBad corrNoOracle msgBareAmount).2.2 ∧
    ((pySplit "15000.00 USD").length = 1 → False) := by
  constructor
  · decide
  · intro hc
    have h := c4_amended evalBad corrNoOracle msgBareAmount (by decide)
    exact h "15000.00 USD" (by rfl) hc

/-- C6: an exception raised by the correction oracle is caught and nothing is
merged, so the optimisation step degenerates to the local deterministic
repair, which still runs; the batch loop still returns one message per input
message; and a bare `"15000.00"` amount becomes `"15000.00 USD"` after one
correction pass with no oracle available. -/
theorem c6_oracle_failure :
    (∀ (reply : OracleReply) (m : Msg), reply = OracleReply.raises →
      optimize_message reply m = fixAmount m) ∧
    (∀ (eo : EvalOracle) (co : CorrOracle) (msgs : List Msg),
      (process_with_evaluator_optimizer eo co msgs).length = msgs.length) ∧
    lookupKey (optimize_message OracleReply.raises [("amount", Val.str "15000.00")]) "amount"
      = some (Val.str "15000.00 USD") := by
  refine ⟨?_, ?_, rfl⟩
  · intro reply m h
    subst h
    rfl
  · intro eo co msgs
    unfold process_with_evaluator_optimizer
    rw [List.length_map]

/-- Witness for C6: the caught-exception pass on the bare-amount message. -/
theorem c6_witness :
    optimize_message OracleReply.raises [("amount", Val.str "15000.00")]
      = fixAmount [("amount", Val.str "15000.00")] :=
  c6_oracle_failure.1 OracleReply.raises [("amount", Val.str "15000.00")] rfl

/-- The key just assigned is among the dict's keys. -/
theorem mem_keysOf_dictInsert_self {α : Type} (k : String) (v : α) :
    ∀ d : List (String × α), k ∈ keysOf (dictInsert k v d) := by
  intro d
  induction d with
  | nil =>
    simp [dictInsert, keysOf]
  | cons kv rest ih =>
    obtain ⟨k3, v3⟩ := kv
    unfold dictInsert
    by_cases h : k3 = k
    · rw [if_pos h]
      simp [keysOf, h]
    · rw [if_neg h]
      simp only [keysOf, List.map_cons, List.mem_cons]
      exact Or.inr ih

/-- Assignment never removes a key. -/
theorem mem_keysOf_dictInsert_of_mem {α : Type} (k2 k : String) (v : α) :
    ∀ d : List (String × α), k2 ∈ keysOf d → k2 ∈ keysOf (dictInsert k v d) := by
  intro d
  induction d with
  | nil =>
    intro h
    exact absurd h (by simp [keysOf])
  | cons kv rest ih =>
    obtain ⟨k3, v3⟩ := kv
    intro h
    unfold dictInsert
    by_cases hk : k3 = k
    · rw [if_pos hk]
      simpa [keysOf] using h
    · rw [if_neg hk]
      simp only [keysOf, List.map_cons, List.mem_cons] at h ⊢
      rcases h with h | h
      · exact Or.inl h
      · exact Or.inr (ih h)

/-- Assignment grows the dict by at most one entry. -/
theorem length_dictInsert_le {α : Type} (k : String) (v : α) :
    ∀ d : List (String × α), (dictInsert k v d).length ≤ d.length + 1 := by
  intro d
  induction d with
  | nil =>
    simp [dictInsert]
  | cons kv rest ih =>
    obtain ⟨k3, v3⟩ := kv
    unfold dictInsert
    by_cases hk : k3 = k
    · rw [if_pos hk]
      simp
    · rw [if_neg hk]
      simp only [List.length_cons]
      omega

/-- Assigning a key that is already present keeps the dict's size. -/
theorem length_dictInsert_of_mem {α : Type} (k : String) (v : α) :
    ∀ d : List (String × α), k ∈ keysOf d → (dictInsert k v d).length = d.length := by
  intro d
  induction d with
  | nil =>
    intro h
    exact absurd h (by simp [keysOf])
  | cons kv rest ih =>
    obtain ⟨k3, v3⟩ := kv
    intro h
    unfold dictInsert
    by_cases hk : k3 = k
    · rw [if_pos hk]
      simp
    · rw [if_neg hk]
      simp only [keysOf, List.map_cons, List.mem_cons] at h
      rcases h with h | h
      · exact absurd h.symm hk
      · simp only [List.length_cons, ih h]

/-- Assigning a fresh key appends the new entry at the end. -/
theorem dictInsert_of_not_mem {α : Type} (k : String) (v : α) :
    ∀ d : List (String × α), k ∉ keysOf d → dictInsert k v d = d ++ [(k, v)] := by
  intro d
  induction d with
  | nil =>
    intro h
    rfl
  | cons kv rest ih =>
    obtain ⟨k3, v3⟩ := kv
    intro h
    simp only [keysOf, List.map_cons, List.mem_cons] at h
    push_neg at h
    unfold dictInsert
    rw [if_neg (fun hc => h.1 hc.symm)]
    rw [ih h.2]
    rfl

/-- A key present in the accumulator stays present through the whole
`future_to_msg` fold. -/
theorem foldl_dictInsert_key_mem :
    ∀ (msgs : List Msg) (d : List (String × Msg)) (k : String), k ∈ keysOf d →
      k ∈ keysOf (msgs.foldl (fun d2 m => dictInsert (idOf m) m d2) d) := by
  intro msgs
  induction msgs with
  | nil =>
    intro d k h
    simpa using h
  | cons m rest ih =>
    intro d k h
    simp only [List.foldl_cons]
    exact ih _ k (mem_keysOf_dictInsert_of_mem k (idOf m) m d h)

/-- The `future_to_msg` fold adds at most one entry per message. -/
theorem foldl_dictInsert_length_le :
    ∀ (msgs : List Msg) (d : List (String × Msg)),
      (msgs.foldl (fun d2 m => dictInsert (idOf m) m d2) d).length ≤ d.length + msgs.length := by
  intro msgs
  induction msgs with
  | nil =>
    intro d
    simp
  | cons m rest ih =>
    intro d
    simp only [List.foldl_cons, List.length_cons]
    have h1 := ih (dictInsert (idOf m) m d)
    have h2 := length_dictInsert_le (idOf m) m d
    omega

/-- With pairwise-distinct ids that are all fresh for the accumulator, the
`future_to_msg` fold appends one entry per message, in input order. -/
theorem foldl_dictInsert_nodup :
    ∀ (msgs : List Msg) (d : List (String × Msg)),
      (msgs.map idOf).Nodup → (∀ m ∈ msgs, idOf m ∉ keysOf d) →
      msgs.foldl (fun d2 m => dictInsert (idOf m) m d2) d
        = d ++ msgs.map (fun m => (idOf m, m)) := by
  intro msgs
  induction msgs with
  | nil =>
    intro d hnodup hdisj
    simp
  | cons m rest ih =>
    intro d hnodup hdisj
    simp only [List.map_cons, List.nodup_cons] at hnodup
    have hnotmem : idOf m ∉ keysOf d := hdisj m (by simp)
    simp only [List.foldl_cons, List.map_cons]
    rw [dictInsert_of_not_mem _ _ _ hnotmem]
    rw [ih (d ++ [(idOf m, m)]) hnodup.2 ?_]
    · simp
    · intro m2 hm2
      have hkeys : keysOf (d ++ [(idOf m, m)]) = keysOf d ++ [idOf m] := by
        simp [keysOf]
      rw [hkeys]
      simp only [List.mem_append, List.mem_singleton]
      rintro (hmem | hmem)
      · exact hdisj m2 (by simp [hm2]) hmem
      · exact hnodup.1 (hmem ▸ List.mem_map_of_mem idOf hm2)

/-- C10: when every message has a `message_id` and the ids are pairwise
distinct, the fan-out returns exactly one fraud-annotated message per input
message, in input order; a duplicated id makes the later message overwrite
the earlier one's dict entry, so the returned list is strictly shorter than
the input and some messages receive no verdict; the final conjunct is the
dict-overwrite semantics itself. -/
theorem c10_batch_dict (agents : List Agent) (msgs : List Msg) :
    ((∀ m ∈ msgs, ∃ s, lookupKey m "message_id" = some (Val.str s)) →
      (msgs.map idOf).Nodup →
      process_batch_parallel agents msgs = msgs.map (markMessage agents)) ∧
    (∀ (l1 l2 l3 : List Msg) (mi mj : Msg),
      msgs = l1 ++ mi :: l2 ++ mj :: l3 → idOf mi = idOf mj →
      (process_batch_parallel agents msgs).length < msgs.length) ∧
    (∀ (k : String) (v : Msg) (d : List (String × Msg)),
      lookupKey (dictInsert k v d) k = some v) := by
  refine ⟨?_, ?_, fun k v d => lookupKey_dictInsert_self k v d⟩
  · intro _ hnodup
    unfold process_batch_parallel buildFutureDict
    rw [foldl_dictInsert_nodup msgs [] hnodup (by simp [keysOf])]
    simp [List.map_map, Function.comp]
  · intro l1 l2 l3 mi mj hdec hid
    subst hdec
    unfold process_batch_parallel buildFutureDict
    rw [List.length_map]
    rw [List.foldl_append, List.foldl_cons, List.foldl_append, List.foldl_cons]
    have hd1 : (l1.foldl (fun d2 m => dictInsert (idOf m) m d2) []).length ≤ l1.length := by
      have h := foldl_dictInsert_length_le l1 []
      simpa using h
    have hd2 := length_dictInsert_le (idOf mi) mi (l1.foldl (fun d2 m => dictInsert (idOf m) m d2) [])
    have hmem2 : idOf mi ∈ keysOf (dictInsert (idOf mi) mi
        (l1.foldl (fun d2 m => dictInsert (idOf m) m d2) [])) :=
      mem_keysOf_dictInsert_self (idOf mi) mi _
    have hmem3 : idOf mi ∈ keysOf (l2.foldl (fun d2 m => dictInsert (idOf m) m d2)
        (dictInsert (idOf mi) mi (l1.foldl (fun d2 m => dictInsert (idOf m) m d2) []))) :=
      foldl_dictInsert_key_mem l2 _ (idOf mi) hmem2
    have hd3 := foldl_dictInsert_length_le l2
      (dictInsert (idOf mi) mi (l1.foldl (fun d2 m => dictInsert (idOf m) m d2) []))
    have hd4 : (dictInsert (idOf mj) mj (l2.foldl (fun d2 m => dictInsert (idOf m) m d2)
        (dictInsert (idOf mi) mi (l1.foldl (fun d2 m => dictInsert (idOf m) m d2) [])))).length
        = (l2.foldl (fun d2 m => dictInsert (idOf m) m d2)
        (dictInsert (idOf mi) mi (l1.foldl (fun d2 m => dictInsert (idOf m) m d2) []))).length :=
      length_dictInsert_of_mem (idOf mj) mj _ (hid ▸ hmem3)
    have hd5 := foldl_dictInsert_length_le l3
      (dictInsert (idOf mj) mj (l2.foldl (fun d2 m => dictInsert (idOf m) m d2)
        (dictInsert (idOf mi) mi (l1.foldl (fun d2 m => dictInsert (idOf m) m d2) []))))
    simp only [List.length_append, List.length_cons]
    omega

/-- Witness for C10: two messages sharing the id `"A"` collapse to a single
result. -/
theorem c10_witness :
    idOf msgDupA = idOf msgDupB ∧
    (process_batch_parallel [] [msgDupA, msgDupB]).length < ([msgDupA, msgDupB] : List Msg).length :=
  ⟨rfl, (c10_batch_dict [] [msgDupA, msgDupB]).2.1 [] [] [] msgDupA msgDupB rfl rfl⟩

end SwiftGuard
